import Mathlib

/-!
# Verification of the chonos live-audio pipeline

Shallow embedding of the audio codec, playback scheduler and tool
dispatcher of the repository (src/services/geminiService.ts and
src/components/LiveAudio.tsx), with theorems settling the spec claims.

Modelling conventions:
* JavaScript binary strings (built with `String.fromCharCode` and read
  back with `charCodeAt`) are modelled by their char-code sequences
  (`List Nat`); for codes below 0x10000 the two operations are mutually
  inverse, so the string layer is the code list itself.
* Base64 text (the output of `btoa` / input of `atob`) is modelled as
  `List Char` over the real base64 alphabet.
* Audio samples are modelled as rationals: every arithmetic operation the
  source performs on them (multiply/divide by the power of two 32768,
  truncation) is exact in binary floating point at these magnitudes.
* Fallible operations return `Option`.
-/

/-! ## PcmCodec: base64 transport text (geminiService.ts `encodeAudio`/`decodeAudio`) -/

/-- The base64 alphabet used by `btoa`/`atob`. -/
def b64chars : List Char :=
  ['A','B','C','D','E','F','G','H','I','J','K','L','M','N','O','P',
   'Q','R','S','T','U','V','W','X','Y','Z',
   'a','b','c','d','e','f','g','h','i','j','k','l','m','n','o','p',
   'q','r','s','t','u','v','w','x','y','z',
   '0','1','2','3','4','5','6','7','8','9','+','/']

/-- Sextet value to base64 character. -/
def b64enc (n : Nat) : Char := b64chars.getD n '='

/-- Base64 character back to its sextet value (position in the alphabet). -/
def b64dec (c : Char) : Nat := b64chars.indexOf c

/-- `btoa` on a binary string given by its byte codes: groups of three
bytes become four base64 characters, a final group of one or two bytes is
padded with `=`. -/
def b64encodeBytes : List Nat → List Char
  | [] => []
  | [a] => [b64enc (a / 4), b64enc (a % 4 * 16), '=', '=']
  | [a, b] => [b64enc (a / 4), b64enc (a % 4 * 16 + b / 16), b64enc (b % 16 * 4), '=']
  | a :: b :: c :: rest =>
      b64enc (a / 4) :: b64enc (a % 4 * 16 + b / 16) ::
      b64enc (b % 16 * 4 + c / 64) :: b64enc (c % 64) :: b64encodeBytes rest

/-- Reassemble bytes from a stream of sextets (`atob` after padding is
stripped): four sextets give three bytes, a trailing group of three or
two sextets gives two bytes or one. -/
def sextetsToBytes : List Nat → List Nat
  | s1 :: s2 :: s3 :: s4 :: rest =>
      (s1 * 4 + s2 / 16) :: (s2 % 16 * 16 + s3 / 4) :: (s3 % 4 * 64 + s4) ::
      sextetsToBytes rest
  | [s1, s2, s3] => [s1 * 4 + s2 / 16, s2 % 16 * 16 + s3 / 4]
  | [s1, s2] => [s1 * 4 + s2 / 16]
  | _ => []

/-- `atob`: drop the padding, map characters to sextets, reassemble bytes. -/
def atobCodes (s : List Char) : List Nat :=
  sextetsToBytes ((s.filter (fun c => c ≠ '=')).map b64dec)

/-- `encodeAudio` (geminiService.ts:214): binary string from the bytes, then `btoa`. -/
def encodeAudio (bytes : List Nat) : List Char := b64encodeBytes bytes

/-- `decodeAudio` (geminiService.ts:185): `atob`, then read the char codes back. -/
def decodeAudio (s : List Char) : List Nat := atobCodes s

example : encodeAudio [0] = ['A', 'A', '=', '='] := by decide
example : decodeAudio ['A', 'A', '=', '='] = [0] := by decide
example : decodeAudio (encodeAudio [77, 97, 110]) = [77, 97, 110] := by decide
example : encodeAudio [77, 97, 110] = ['T', 'W', 'F', 'u'] := by decide

theorem b64dec_enc {n : Nat} (h : n < 64) : b64dec (b64enc n) = n := by
  have H : ∀ m : Fin 64, b64dec (b64enc m.val) = m.val := by decide
  exact H ⟨n, h⟩

theorem b64enc_ne_pad {n : Nat} (h : n < 64) : b64enc n ≠ '=' := by
  have H : ∀ m : Fin 64, b64enc m.val ≠ '=' := by decide
  exact H ⟨n, h⟩

/-- `atob` undoes `btoa` on every sequence of bytes (values below 256). -/
theorem atob_btoa (bytes : List Nat) (h : ∀ b ∈ bytes, b < 256) :
    atobCodes (b64encodeBytes bytes) = bytes := by
  induction bytes using b64encodeBytes.induct with
  | case1 => rfl
  | case2 a =>
      have ha : a < 256 := h a (by simp)
      have h1 : a / 4 < 64 := by omega
      have h2 : a % 4 * 16 < 64 := by omega
      simp only [b64encodeBytes, atobCodes]
      rw [show (([b64enc (a / 4), b64enc (a % 4 * 16), '=', '=']).filter
            (fun c => c ≠ '=')) = [b64enc (a / 4), b64enc (a % 4 * 16)] by
        simp [List.filter_cons, b64enc_ne_pad h1, b64enc_ne_pad h2]]
      simp only [List.map_cons, List.map_nil, b64dec_enc h1, b64dec_enc h2, sextetsToBytes]
      simp only [List.cons.injEq, and_true]
      omega
  | case3 a b =>
      have ha : a < 256 := h a (by simp)
      have hb : b < 256 := h b (by simp)
      have h1 : a / 4 < 64 := by omega
      have h2 : a % 4 * 16 + b / 16 < 64 := by omega
      have h3 : b % 16 * 4 < 64 := by omega
      simp only [b64encodeBytes, atobCodes]
      rw [show (([b64enc (a / 4), b64enc (a % 4 * 16 + b / 16), b64enc (b % 16 * 4),
            '=']).filter (fun c => c ≠ '=')) =
          [b64enc (a / 4), b64enc (a % 4 * 16 + b / 16), b64enc (b % 16 * 4)] by
        simp [List.filter_cons, b64enc_ne_pad h1, b64enc_ne_pad h2, b64enc_ne_pad h3]]
      simp only [List.map_cons, List.map_nil, b64dec_enc h1, b64dec_enc h2,
        b64dec_enc h3, sextetsToBytes]
      simp only [List.cons.injEq, and_true]
      constructor
      · omega
      · omega
  | case4 a b c rest ih =>
      have ha : a < 256 := h a (by simp)
      have hb : b < 256 := h b (by simp)
      have hc : c < 256 := h c (by simp)
      have h1 : a / 4 < 64 := by omega
      have h2 : a % 4 * 16 + b / 16 < 64 := by omega
      have h3 : b % 16 * 4 + c / 64 < 64 := by omega
      have h4 : c % 64 < 64 := by omega
      have ihr := ih (fun x hx => h x (by simp [hx]))
      simp only [atobCodes] at ihr
      simp only [b64encodeBytes, atobCodes, List.filter_cons,
        b64enc_ne_pad h1, b64enc_ne_pad h2, b64enc_ne_pad h3, b64enc_ne_pad h4,
        ne_eq, not_false_eq_true, decide_True, if_true, List.map_cons,
        b64dec_enc h1, b64dec_enc h2, b64dec_enc h3, b64dec_enc h4, sextetsToBytes]
      simp only [List.cons.injEq]
      refine ⟨by omega, by omega, by omega, ihr⟩

/-- C4: decoding the transport-text encoding of any byte buffer gives back
exactly that buffer, byte for byte: `decodeAudio (encodeAudio b) = b`. -/
theorem decodeAudio_encodeAudio (b : List Nat) (h : ∀ x ∈ b, x < 256) :
    decodeAudio (encodeAudio b) = b :=
  atob_btoa b h

theorem decodeAudio_encodeAudio_witness :
    decodeAudio (encodeAudio [0, 127, 255, 16]) = [0, 127, 255, 16] :=
  decodeAudio_encodeAudio [0, 127, 255, 16] (by decide)

/-! ## PcmCodec: 16-bit PCM samples (`createPcmBlob`, `decodeAudioData`) -/

/-- Truncation toward zero: the integer part JavaScript keeps when a float
is stored into an `Int16Array` element. -/
def truncTowardZero (q : ℚ) : ℤ := if 0 ≤ q then ⌊q⌋ else ⌈q⌉

/-- Reduction into the signed 16-bit range, as JavaScript ToInt16 performs
on `Int16Array` element stores: modulo 2^16, two's complement. -/
def toInt16 (n : ℤ) : ℤ :=
  if 32768 ≤ n % 65536 then n % 65536 - 65536 else n % 65536

/-- One sample store of `createPcmBlob` (geminiService.ts:227):
`int16[i] = data[i] * 32768`. -/
def encodeSample (q : ℚ) : ℤ := toInt16 (truncTowardZero (q * 32768))

/-- The two little-endian bytes of an `Int16Array` element as seen through
`new Uint8Array(int16.buffer)`. -/
def int16ToBytes (v : ℤ) : List Nat :=
  [(v % 65536).toNat % 256, (v % 65536).toNat / 256]

/-- Reading one little-endian byte pair back as a signed 16-bit sample,
as `new Int16Array(data.buffer)` does. -/
def bytesToInt16 (lo hi : Nat) : ℤ :=
  if 32768 ≤ lo + 256 * hi then (lo : ℤ) + 256 * hi - 65536 else (lo : ℤ) + 256 * hi

/-- The byte payload assembled by `createPcmBlob` (geminiService.ts:223)
before the transport-text encoding is applied to it. -/
def createPcmBlobBytes (samples : List ℚ) : List Nat :=
  (samples.map (fun q => int16ToBytes (encodeSample q))).flatten

/-- The constant MIME type declared by `createPcmBlob`. -/
def pcmMime : String := "audio/pcm;rate=16000"

/-- `createPcmBlob` (geminiService.ts:223): the transport-text encoding of
the 16-bit little-endian payload, together with the MIME type. -/
def createPcmBlob (samples : List ℚ) : List Char × String :=
  (encodeAudio (createPcmBlobBytes samples), pcmMime)

/-- Consecutive byte pairs, as `new Int16Array(data.buffer)` views a byte
buffer. -/
def pairUp : List Nat → List (Nat × Nat)
  | lo :: hi :: rest => (lo, hi) :: pairUp rest
  | _ => []

/-- `decodeAudioData` (geminiService.ts:195) at the 1-channel default the
caller uses: `new Int16Array(data.buffer)` — which throws a `RangeError`
when the byte length is not a multiple of 2 — then every little-endian
sample divided by 32768.0. -/
def decodeAudioData (data : List Nat) : Option (List ℚ) :=
  if data.length % 2 = 0 then
    some ((pairUp data).map (fun p => (bytesToInt16 p.1 p.2 : ℚ) / 32768))
  else none

theorem toInt16_range (n : ℤ) : -32768 ≤ toInt16 n ∧ toInt16 n ≤ 32767 := by
  unfold toInt16
  split <;> omega

theorem toInt16_eq_self {n : ℤ} (h1 : -32768 ≤ n) (h2 : n ≤ 32767) :
    toInt16 n = n := by
  unfold toInt16
  split <;> omega

theorem truncTowardZero_inrange_bounds {q : ℚ} (h1 : -1 ≤ q) (h2 : q < 1) :
    -32768 ≤ truncTowardZero (q * 32768) ∧ truncTowardZero (q * 32768) ≤ 32767 := by
  unfold truncTowardZero
  split
  case isTrue hq =>
    constructor
    · have : (0 : ℤ) ≤ ⌊q * 32768⌋ := Int.floor_nonneg.mpr hq
      omega
    · have : ⌊q * 32768⌋ < 32768 := by
        rw [Int.floor_lt]
        push_cast
        linarith
      omega
  case isFalse hq =>
    constructor
    · have : (-32768 : ℤ) ≤ ⌈q * 32768⌉ := by
        rw [Int.le_ceil_iff]
        push_cast
        linarith
      omega
    · have : ⌈q * 32768⌉ ≤ 0 := Int.ceil_le.mpr (by push_cast; linarith)
      omega

theorem encodeSample_inrange {q : ℚ} (h1 : -1 ≤ q) (h2 : q < 1) :
    encodeSample q = truncTowardZero (q * 32768) := by
  obtain ⟨hl, hr⟩ := truncTowardZero_inrange_bounds h1 h2
  exact toInt16_eq_self hl hr

theorem encodeSample_range (q : ℚ) :
    -32768 ≤ encodeSample q ∧ encodeSample q ≤ 32767 :=
  toInt16_range _

theorem bytesToInt16_int16ToBytes {v : ℤ} (h1 : -32768 ≤ v) (h2 : v ≤ 32767) :
    bytesToInt16 ((v % 65536).toNat % 256) ((v % 65536).toNat / 256) = v := by
  unfold bytesToInt16
  split <;> omega

theorem createPcmBlobBytes_cons (q : ℚ) (rest : List ℚ) :
    createPcmBlobBytes (q :: rest) =
      int16ToBytes (encodeSample q) ++ createPcmBlobBytes rest := by
  simp [createPcmBlobBytes]

theorem createPcmBlobBytes_length (x : List ℚ) :
    (createPcmBlobBytes x).length = 2 * x.length := by
  induction x with
  | nil => rfl
  | cons q rest ih =>
      rw [createPcmBlobBytes_cons, List.length_append, ih]
      simp [int16ToBytes]
      omega

theorem pairUp_length (l : List Nat) : (pairUp l).length = l.length / 2 := by
  induction l using pairUp.induct with
  | case1 lo hi rest ih =>
      simp only [pairUp, List.length_cons, ih]
      omega
  | case2 l h =>
      match l, h with
      | [], _ => rfl
      | [a], _ =>
          have hp : pairUp [a] = [] := rfl
          rw [hp]
          simp
      | a :: b :: r, h => exact (h a b r rfl).elim

theorem pairUp_mem {p : Nat × Nat} :
    ∀ {l : List Nat}, p ∈ pairUp l → p.1 ∈ l ∧ p.2 ∈ l := by
  intro l
  induction l using pairUp.induct with
  | case1 lo hi rest ih =>
      intro hp
      simp only [pairUp, List.mem_cons] at hp
      rcases hp with h | h
      · subst h
        simp
      · have := ih h
        simp [this.1, this.2]
  | case2 l h =>
      intro hp
      match l, h with
      | [], _ => simp [pairUp] at hp
      | [a], _ => simp [pairUp] at hp
      | a :: b :: r, h => exact (h a b r rfl).elim

theorem pairUp_createPcm_map (x : List ℚ) :
    (pairUp (createPcmBlobBytes x)).map (fun p => (bytesToInt16 p.1 p.2 : ℚ) / 32768) =
      x.map (fun q => ((encodeSample q : ℤ) : ℚ) / 32768) := by
  induction x with
  | nil => rfl
  | cons q rest ih =>
      rw [createPcmBlobBytes_cons]
      have hb := encodeSample_range q
      rw [show int16ToBytes (encodeSample q) =
          [((encodeSample q) % 65536).toNat % 256, ((encodeSample q) % 65536).toNat / 256]
        from rfl]
      simp only [List.cons_append, List.nil_append]
      simp only [pairUp, List.map_cons]
      rw [ih, bytesToInt16_int16ToBytes hb.1 hb.2]

/-- The full payload of `createPcmBlob` decodes (at the same 1-channel
layout) to exactly the 16-bit-quantized samples. -/
theorem decodeAudioData_createPcmBlobBytes (x : List ℚ) :
    decodeAudioData (createPcmBlobBytes x) =
      some (x.map (fun q => ((encodeSample q : ℤ) : ℚ) / 32768)) := by
  unfold decodeAudioData
  rw [if_pos (by rw [createPcmBlobBytes_length]; omega), pairUp_createPcm_map]

theorem listGetD_eq {α : Type _} (l : List α) (d : α) (i : Nat) (h : i < l.length) :
    l.getD i d = l[i] := by
  rw [List.getD_eq_getElem?_getD, List.getElem?_eq_getElem h]
  rfl

/-- The per-sample quantization bound for in-range samples. -/
theorem encodeSample_quant_bound {q : ℚ} (h1 : -1 ≤ q) (h2 : q < 1) :
    |((encodeSample q : ℤ) : ℚ) / 32768 - q| ≤ 1 / 32768 := by
  rw [encodeSample_inrange h1 h2]
  unfold truncTowardZero
  split
  case isTrue hq =>
    have hf1 := Int.floor_le (q * 32768)
    have hf2 := Int.lt_floor_add_one (q * 32768)
    rw [abs_le]
    constructor <;> linarith
  case isFalse hq =>
    have hc1 := Int.le_ceil (q * 32768)
    have hc2 := Int.ceil_lt_add_one (q * 32768)
    rw [abs_le]
    constructor <;> linarith

/-- C3: a sequence of samples inside the representable 16-bit range
decodes, after `createPcmBlob` encoding, to a sequence of the same length
whose every sample is within one quantization step (1/32768) of the
original. -/
theorem decode_encode_roundtrip (x : List ℚ) (h : ∀ q ∈ x, -1 ≤ q ∧ q < 1) :
    ∃ y, decodeAudioData (createPcmBlobBytes x) = some y ∧
      y.length = x.length ∧
      ∀ i, i < x.length → |y.getD i 0 - x.getD i 0| ≤ 1 / 32768 := by
  refine ⟨_, decodeAudioData_createPcmBlobBytes x, by simp, ?_⟩
  intro i hi
  have hilen : i < (x.map (fun q => ((encodeSample q : ℤ) : ℚ) / 32768)).length := by
    simpa using hi
  rw [listGetD_eq _ _ _ hilen, listGetD_eq _ _ _ hi, List.getElem_map]
  have hmem : x[i] ∈ x := List.getElem_mem hi
  exact encodeSample_quant_bound (h _ hmem).1 (h _ hmem).2

theorem decode_encode_roundtrip_witness :
    ∃ y, decodeAudioData (createPcmBlobBytes [1/2, -(1/2), 0]) = some y ∧
      y.length = ([1/2, -(1/2), 0] : List ℚ).length ∧
      ∀ i, i < ([1/2, -(1/2), 0] : List ℚ).length →
        |y.getD i 0 - ([1/2, -(1/2), 0] : List ℚ).getD i 0| ≤ 1 / 32768 :=
  decode_encode_roundtrip [1/2, -(1/2), 0] (by
    intro q hq
    fin_cases hq <;> norm_num)

/-- C9: the encoder's envelope carries a byte payload of exactly `2 * n`
bytes for `n` input samples (before the transport-text encoding), and the
constant MIME type `audio/pcm;rate=16000`, whatever the input values. -/
theorem createPcmBlob_envelope (samples : List ℚ) :
    (createPcmBlobBytes samples).length = 2 * samples.length ∧
    (createPcmBlob samples).2 = "audio/pcm;rate=16000" :=
  ⟨createPcmBlobBytes_length samples, rfl⟩

/-- C10: a byte buffer of odd length makes the decoder fail, and an
even-length buffer with one channel yields exactly `byteLength / 2`
samples, each inside `[-1, 1)`. -/
theorem decodeAudioData_shape (data : List Nat) (hb : ∀ b ∈ data, b < 256) :
    (data.length % 2 = 1 → decodeAudioData data = none) ∧
    (data.length % 2 = 0 →
      ∃ y, decodeAudioData data = some y ∧ y.length = data.length / 2 ∧
        ∀ q ∈ y, -1 ≤ q ∧ q < 1) := by
  constructor
  · intro hodd
    unfold decodeAudioData
    rw [if_neg (by omega)]
  · intro heven
    refine ⟨_, by unfold decodeAudioData; rw [if_pos heven], ?_, ?_⟩
    · simp [pairUp_length]
    · intro q hq
      simp only [List.mem_map] at hq
      obtain ⟨p, hp, rfl⟩ := hq
      have hmem := pairUp_mem hp
      have hlo := hb p.1 hmem.1
      have hhi := hb p.2 hmem.2
      have hrange : -32768 ≤ bytesToInt16 p.1 p.2 ∧ bytesToInt16 p.1 p.2 ≤ 32767 := by
        unfold bytesToInt16
        split <;> omega
      have hcast1 : (-32768 : ℚ) ≤ (bytesToInt16 p.1 p.2 : ℚ) := by
        exact_mod_cast hrange.1
      have hcast2 : (bytesToInt16 p.1 p.2 : ℚ) ≤ 32767 := by
        exact_mod_cast hrange.2
      constructor
      · rw [le_div_iff₀ (by norm_num)]
        linarith
      · rw [div_lt_one (by norm_num)]
        linarith

theorem decodeAudioData_shape_witness :
    decodeAudioData [1, 2, 3] = none ∧
    (∃ y, decodeAudioData [0, 128] = some y ∧ y.length = [0, 128].length / 2 ∧
      ∀ q ∈ y, -1 ≤ q ∧ q < 1) :=
  ⟨(decodeAudioData_shape [1, 2, 3] (by decide)).1 rfl,
   (decodeAudioData_shape [0, 128] (by decide)).2 rfl⟩

theorem encodeSample_at_one : encodeSample 1 = -32768 := by
  unfold encodeSample
  rw [show (1 : ℚ) * 32768 = ((32768 : ℤ) : ℚ) by norm_num]
  rw [truncTowardZero, if_pos (by norm_num), Int.floor_intCast]
  decide

theorem encodeSample_at_three_halves : encodeSample (3 / 2) = -16384 := by
  unfold encodeSample
  rw [show (3 / 2 : ℚ) * 32768 = ((49152 : ℤ) : ℚ) by norm_num]
  rw [truncTowardZero, if_pos (by norm_num), Int.floor_intCast]
  decide

theorem encodeSample_at_neg_two : encodeSample (-2) = 0 := by
  unfold encodeSample
  rw [show (-2 : ℚ) * 32768 = ((-65536 : ℤ) : ℚ) by norm_num]
  rw [truncTowardZero, if_neg (by norm_num), Int.ceil_intCast]
  decide

/-- C5 fails on the code: a sample at the top of the range does not
saturate to 32767 — the `Int16Array` store wraps modulo 2^16, so the
sample 1.0 encodes to -32768. -/
theorem encodeSample_saturation_counterexample :
    encodeSample 1 = -32768 ∧ encodeSample 1 ≠ 32767 :=
  ⟨encodeSample_at_one, by rw [encodeSample_at_one]; decide⟩

/-- C5 amended: each sample is scaled by 32768, truncated toward zero and
stored with two's-complement wrap-around modulo 2^16 — in-range samples
are stored exactly, out-of-range samples wrap rather than saturate
(1 encodes to -32768, 3/2 to -16384, -2 to 0). -/
theorem encodeSample_wrap (q : ℚ) (h1 : -1 ≤ q) (h2 : q < 1) :
    encodeSample q = truncTowardZero (q * 32768) ∧
    encodeSample 1 = -32768 ∧ encodeSample (3 / 2) = -16384 ∧
    encodeSample (-2) = 0 :=
  ⟨encodeSample_inrange h1 h2, encodeSample_at_one,
   encodeSample_at_three_halves, encodeSample_at_neg_two⟩

theorem encodeSample_wrap_witness :
    encodeSample 0 = truncTowardZero (0 * 32768) ∧
    encodeSample 1 = -32768 ∧ encodeSample (3 / 2) = -16384 ∧
    encodeSample (-2) = 0 :=
  encodeSample_wrap 0 (by norm_num) (by norm_num)

/-! ## PlaybackScheduler (LiveAudio.tsx `handleAudioData`) -/

/-- `audioBuffer.duration`: the frame count over the 24 kHz output rate
the buffer was created with. -/
def frameDuration (samples : List ℚ) : ℚ := samples.length / 24000

/-- LiveAudio.tsx:79-82: `startTime = max(currentTime, nextStartTime)`;
the frame is scheduled at `startTime` and the cursor becomes
`startTime + duration`. Returns the scheduled start and the new cursor. -/
def scheduleFrame (currentTime cursor d : ℚ) : ℚ × ℚ :=
  (max currentTime cursor, max currentTime cursor + d)

/-- `handleAudioData` (LiveAudio.tsx:63-87): decode the transport text,
then the PCM payload; on success schedule the frame via `scheduleFrame`,
on decode failure (the catch block) schedule nothing and leave the cursor
untouched. Returns the scheduled start, if any, and the new cursor. -/
def handleAudioData (currentTime : ℚ) (base64 : List Char) (cursor : ℚ) :
    Option ℚ × ℚ :=
  match decodeAudioData (decodeAudio base64) with
  | none => (none, cursor)
  | some samples =>
      ((scheduleFrame currentTime cursor (frameDuration samples)).1,
       (scheduleFrame currentTime cursor (frameDuration samples)).2)
      |> fun r => (some r.1, r.2)

/-- A run of the scheduler over already-decoded frames: each delivery
carries the device-clock reading at that moment and the frame duration;
the result lists the scheduled start times in order. -/
def runScheduler : List (ℚ × ℚ) → ℚ → List ℚ
  | [], _ => []
  | (clock, d) :: rest, cursor =>
      (scheduleFrame clock cursor d).1 ::
        runScheduler rest (scheduleFrame clock cursor d).2

theorem runScheduler_length (ds : List (ℚ × ℚ)) (c : ℚ) :
    (runScheduler ds c).length = ds.length := by
  induction ds generalizing c with
  | nil => rfl
  | cons p rest ih =>
      obtain ⟨clock, d⟩ := p
      simp [runScheduler, ih]

theorem runScheduler_head_ge (p : ℚ × ℚ) (rest : List (ℚ × ℚ)) (c : ℚ) :
    c ≤ (runScheduler (p :: rest) c).getD 0 0 := by
  obtain ⟨clock, d⟩ := p
  simp only [runScheduler, scheduleFrame, List.getD_cons_zero]
  exact le_max_right _ _

/-- C1: over any run, scheduled start times are non-decreasing and each
start is at least the previous start plus the previous duration. -/
theorem runScheduler_monotone (ds : List (ℚ × ℚ)) (hd : ∀ p ∈ ds, 0 ≤ p.2)
    (c : ℚ) (i : ℕ) (hi : i + 1 < ds.length) :
    (runScheduler ds c).getD i 0 + (ds.getD i (0, 0)).2 ≤
      (runScheduler ds c).getD (i + 1) 0 ∧
    (runScheduler ds c).getD i 0 ≤ (runScheduler ds c).getD (i + 1) 0 := by
  induction ds generalizing c i with
  | nil => simp at hi
  | cons p rest ih =>
      obtain ⟨clock, d⟩ := p
      match i with
      | 0 =>
          match rest, hi with
          | q :: rest', _ =>
              obtain ⟨clock', d'⟩ := q
              have hd0 : 0 ≤ d := hd (clock, d) (by simp)
              simp only [runScheduler, List.getD_cons_zero, List.getD_cons_succ,
                scheduleFrame]
              constructor
              · exact le_max_right _ _
              · have := le_max_right clock' (max clock c + d)
                linarith
      | Nat.succ k =>
          have hk : k + 1 < rest.length := by
            simpa using hi
          have := ih (fun p hp => hd p (by simp [hp]))
            ((scheduleFrame clock c d).2) k hk
          simpa [runScheduler, List.getD_cons_succ] using this

theorem runScheduler_monotone_witness :
    (runScheduler [(0, 1), (0, 2)] 0).getD 0 0 +
        (([(0, 1), (0, 2)] : List (ℚ × ℚ)).getD 0 (0, 0)).2 ≤
      (runScheduler [(0, 1), (0, 2)] 0).getD 1 0 ∧
    (runScheduler [(0, 1), (0, 2)] 0).getD 0 0 ≤
      (runScheduler [(0, 1), (0, 2)] 0).getD 1 0 :=
  runScheduler_monotone [(0, 1), (0, 2)]
    (by intro p hp; fin_cases hp <;> norm_num) 0 0 (by simp)

/-- A run of `handleAudioData` itself, over raw transport-text deliveries:
each delivery carries the device-clock reading and the base64 payload. -/
def runHandler : List (ℚ × List Char) → ℚ → List (Option ℚ)
  | [], _ => []
  | (clock, b64) :: rest, cursor =>
      (handleAudioData clock b64 cursor).1 ::
        runHandler rest (handleAudioData clock b64 cursor).2

/-- C6: a frame whose decoding fails is dropped in place: `handleAudioData`
schedules nothing for it, returns with the cursor unchanged (the model is
total, mirroring the catch block that stops the error from escaping), and
the remainder of the run is exactly what it would have been had the bad
frame never arrived. -/
theorem decode_failure_skips_frame (clock : ℚ) (bad : List Char) (cursor : ℚ)
    (rest : List (ℚ × List Char))
    (hbad : decodeAudioData (decodeAudio bad) = none) :
    handleAudioData clock bad cursor = (none, cursor) ∧
    runHandler ((clock, bad) :: rest) cursor = none :: runHandler rest cursor := by
  have h1 : handleAudioData clock bad cursor = (none, cursor) := by
    unfold handleAudioData
    rw [hbad]
  exact ⟨h1, by simp [runHandler, h1]⟩

theorem decode_failure_skips_frame_witness :
    handleAudioData 0 ['A', 'A', '=', '='] 0 = (none, 0) ∧
    runHandler [(0, ['A', 'A', '=', '=']), (1, ['A', 'A', 'A', 'A'])] 0 =
      none :: runHandler [(1, ['A', 'A', 'A', 'A'])] 0 :=
  decode_failure_skips_frame 0 ['A', 'A', '=', '='] 0
    [(1, ['A', 'A', 'A', 'A'])] (by decide)

/-- C8: the playback cursor never decreases: for any device-clock value
and non-negative duration the scheduling step's new cursor is at least the
old one, and `handleAudioData` — the only operation that writes the
cursor — never decreases it for any delivery. -/
theorem cursor_monotone (clock d cursor : ℚ) (hd : 0 ≤ d) :
    cursor ≤ (scheduleFrame clock cursor d).2 ∧
    ∀ b64 : List Char, cursor ≤ (handleAudioData clock b64 cursor).2 := by
  constructor
  · have := le_max_right clock cursor
    simp only [scheduleFrame]
    linarith
  · intro b64
    unfold handleAudioData
    cases hdec : decodeAudioData (decodeAudio b64) with
    | none => simp
    | some samples =>
        have hdur : 0 ≤ frameDuration samples := by
          unfold frameDuration
          positivity
        have := le_max_right clock cursor
        simp only [scheduleFrame]
        linarith

theorem cursor_monotone_witness :
    (0 : ℚ) ≤ (scheduleFrame 1 0 (1 / 2)).2 ∧
    ∀ b64 : List Char, (0 : ℚ) ≤ (handleAudioData 1 b64 0).2 :=
  cursor_monotone 1 (1 / 2) 0 (by norm_num)

/-! ## ToolDispatcher (geminiService.ts `connectToLiveAPI` onmessage) -/

/-- One inbound function call of a `toolCall` message. -/
structure FunctionCall where
  id : String
  name : String
deriving DecidableEq

/-- One entry of a `sendToolResponse` payload. -/
structure FunctionResponse where
  id : String
  name : String
  response : String
deriving DecidableEq

/-- The tool-call loop of `onmessage` (geminiService.ts:255-271): for each
function call, only the name `captureSnapshot` is recognized; it invokes
the local capture hook and sends one success response carrying the call's
id and name. Any other name matches no branch and falls through. Returns
the responses sent, in order, and the number of capture-hook invocations. -/
def processToolCalls : List FunctionCall → List FunctionResponse × Nat
  | [] => ([], 0)
  | fc :: rest =>
      let r := processToolCalls rest
      if fc.name = "captureSnapshot" then
        (⟨fc.id, fc.name, "Snapshot captured successfully."⟩ :: r.1, r.2 + 1)
      else r

/-- C7: an inbound invocation named `captureSnapshot` invokes the capture
hook exactly once and sends back exactly one ToolResult whose id equals
the invocation's id, with the success payload. -/
theorem captureSnapshot_dispatch (i : String) :
    processToolCalls [⟨i, "captureSnapshot"⟩] =
      ([⟨i, "captureSnapshot", "Snapshot captured successfully."⟩], 1) := by
  simp [processToolCalls]

/-- C2 fails on the code: an invocation naming any tool other than
`captureSnapshot` receives no ToolResult at all — the dispatch loop only
answers `captureSnapshot`, so the remote endpoint gets no error-shaped
answer, and no response carrying the invocation's id exists. -/
theorem unknownTool_counterexample :
    (processToolCalls [⟨"7", "panCamera"⟩]).1 = [] ∧
    ¬ ∃ r ∈ (processToolCalls [⟨"7", "panCamera"⟩]).1, r.id = "7" := by
  constructor
  · simp [processToolCalls]
  · simp [processToolCalls]

/-- C2 amended: an invocation named `captureSnapshot` yields exactly one
ToolResult with its id; an invocation naming any other tool yields no
response at all (it is dropped silently, with no capture-hook call). -/
theorem dispatch_response_amended (fc : FunctionCall) :
    (fc.name = "captureSnapshot" →
      processToolCalls [fc] =
        ([⟨fc.id, fc.name, "Snapshot captured successfully."⟩], 1)) ∧
    (fc.name ≠ "captureSnapshot" → processToolCalls [fc] = ([], 0)) := by
  constructor
  · intro h
    simp [processToolCalls, h]
  · intro h
    simp [processToolCalls, h]

theorem dispatch_response_amended_witness :
    processToolCalls [⟨"42", "captureSnapshot"⟩] =
      ([⟨"42", "captureSnapshot", "Snapshot captured successfully."⟩], 1) :=
  (dispatch_response_amended ⟨"42", "captureSnapshot"⟩).1 rfl
